import Mathlib

/-!
Verification of the topographic-zone weight generation algorithm in
improver/generate_ancillaries/generate_topographic_zone_weights.py
(class GenerateTopographicZoneWeights).

The embedding works over rationals.  The 2-D grid is flattened: grid
points are indexed by a natural number below a point count n, matching
the fact that the algorithm treats (y, x) only through np.where masks.
The weight volume is a function from (band index, point index) to a
rational, initialised to zero; numpy in-place writes become functional
updates.  The NaN-filled per-band orography array becomes a function to
Option; comparisons against NaN (none) evaluate to false, matching the
numpy semantics the source relies on.
-/

namespace TopoZone

/-- Membership of a value in a band: the selection
`(orography.data > band[0]) & (orography.data <= band[1])`
in process (left-open, right-closed). -/
def inBand (band : ℚ × ℚ) (v : ℚ) : Prop :=
  band.1 < v ∧ v ≤ band.2

instance (band : ℚ × ℚ) (v : ℚ) : Decidable (inBand band v) := by
  unfold inBand; infer_instance

/-- The per-band working array built in process: NaN (none) everywhere
except at member points of the band, which hold the elevation value. -/
def orography_band (oro : ℕ → ℚ) (n : ℕ) (band : ℚ × ℚ) (i : ℕ) : Option ℚ :=
  if i < n ∧ inBand band (oro i) then some (oro i) else none

/-- Comparison `o > m` where o may be NaN (none): NaN compares false,
as under np.errstate(invalid=ignore) in the source. -/
def nanGT (o : Option ℚ) (m : ℚ) : Bool :=
  match o with
  | some v => decide (m < v)
  | none => false

/-- Comparison `o < m` where o may be NaN (none): NaN compares false. -/
def nanLT (o : Option ℚ) (m : ℚ) : Bool :=
  match o with
  | some v => decide (v < m)
  | none => false

/-- The static method calculate_weights: np.interp of the point value
over the nodes [band lower bound, midpoint, band upper bound] with
values [0.5, 1.0, 0.5].  np.interp clamps below the first node and
above the last node, returns the node value exactly at a node, and
interpolates linearly inside each segment. -/
def calculate_weights (v lo hi : ℚ) : ℚ :=
  let m := (lo + hi) / 2
  if v ≤ lo then 1 / 2
  else if v < m then 1 / 2 + (1 - 1 / 2) / (m - lo) * (v - lo)
  else if v = m then 1
  else if v < hi then 1 + (1 / 2 - 1) / (hi - m) * (v - m)
  else 1 / 2

/-- The static method add_weight_to_upper_adjacent_band.  For member
points strictly above the midpoint: if the band is the uppermost band,
the own slice is set to 1.0 at those points; otherwise the slice above
receives 1 minus the already-computed weight of the current band. -/
def add_weight_to_upper_adjacent_band (W : ℕ → ℕ → ℚ) (n : ℕ)
    (oroBand : ℕ → Option ℚ) (midpoint : ℚ)
    (band_number max_band_number : ℕ) : ℕ → ℕ → ℚ :=
  fun b i =>
    if band_number = max_band_number then
      if b = band_number ∧ i < n ∧ nanGT (oroBand i) midpoint then 1
      else W b i
    else
      if b = band_number + 1 ∧ i < n ∧ nanGT (oroBand i) midpoint then
        1 - W band_number i
      else W b i

/-- The static method add_weight_to_lower_adjacent_band.  For member
points strictly below the midpoint: if the band is the lowest band,
the own slice is set to 1.0 at those points; otherwise the slice below
receives 1 minus the already-computed weight of the current band. -/
def add_weight_to_lower_adjacent_band (W : ℕ → ℕ → ℚ) (n : ℕ)
    (oroBand : ℕ → Option ℚ) (midpoint : ℚ)
    (band_number : ℕ) : ℕ → ℕ → ℚ :=
  fun b i =>
    if band_number = 0 then
      if b = band_number ∧ i < n ∧ nanLT (oroBand i) midpoint then 1
      else W b i
    else
      if b = band_number - 1 ∧ i < n ∧ nanLT (oroBand i) midpoint then
        1 - W band_number i
      else W b i

/-- The own-band write of process: weights are interpolated for the
whole orography but written only at the member points of the band. -/
def insert_band_weights (W : ℕ → ℕ → ℚ) (n : ℕ) (oro : ℕ → ℚ)
    (band : ℚ × ℚ) (band_number : ℕ) : ℕ → ℕ → ℚ :=
  fun b i =>
    if b = band_number ∧ i < n ∧ inBand band (oro i) then
      calculate_weights (oro i) band.1 band.2
    else W b i

/-- Modelled from the spec: the points of the topographic_zone
coordinate built by _make_mask_cube (generate_ancillary.py, not under
src/) are the band midpoints, the mean of lower and upper bound. -/
def midpointOf (band : ℚ × ℚ) : ℚ := (band.1 + band.2) / 2

/-- Indexing into the band list, as bands[band_number] in the source. -/
def bandAt (bands : List (ℚ × ℚ)) (b : ℕ) : ℚ × ℚ :=
  bands.getD b (0, 0)

/-- One iteration of the band loop of process: insert the interpolated
weights for the member points of band b, then apply the lower-adjacent
update, then the upper-adjacent update. -/
def processBand (oro : ℕ → ℚ) (n : ℕ) (bands : List (ℚ × ℚ)) (b : ℕ)
    (W : ℕ → ℕ → ℚ) : ℕ → ℕ → ℚ :=
  let band := bandAt bands b
  let oband := orography_band oro n band
  let W1 := insert_band_weights W n oro band b
  let W2 := add_weight_to_lower_adjacent_band W1 n oband (midpointOf band) b
  add_weight_to_upper_adjacent_band W2 n oband (midpointOf band) b
    (bands.length - 1)

/-- The full band loop of process, starting from the all-zero volume
created via _make_mask_cube, iterating bands in ascending index order. -/
def topographic_zone_weights_data (oro : ℕ → ℚ) (n : ℕ)
    (bands : List (ℚ × ℚ)) : ℕ → ℕ → ℚ :=
  (List.range bands.length).foldl
    (fun W b => processBand oro n bands b W) (fun _ _ => 0)

/-- The band loop after processing only the first k bands; the full
volume is weightsAfter at k = number of bands. -/
def weightsAfter (oro : ℕ → ℚ) (n : ℕ) (bands : List (ℚ × ℚ)) (k : ℕ) :
    ℕ → ℕ → ℚ :=
  (List.range k).foldl (fun W b => processBand oro n bands b W) (fun _ _ => 0)

/-- np.max of a list of values (the empty case never arises in the
claims; numpy would raise there). -/
def npMax : List ℚ → ℚ
  | [] => 0
  | x :: xs => xs.foldl max x

/-- np.min of a list of values. -/
def npMin : List ℚ → ℚ
  | [] => 0
  | x :: xs => xs.foldl min x

/-- The flattened orography data as a list, for np.max and np.min. -/
def oroList (oro : ℕ → ℚ) (n : ℕ) : List ℚ :=
  (List.range n).map oro

/-- The bands array flattened, as np.max(bands) and np.min(bands) see
it: all lower and upper bounds together. -/
def bandsFlat (bands : List (ℚ × ℚ)) : List ℚ :=
  bands.flatMap fun p => [p.1, p.2]

/-- Warning text for orography above the uppermost band. -/
def max_warning : String :=
  "The maximum orography is greater than the uppermost band. This will potentially cause the topographic zone weights to not sum to 1 for a given grid point."

/-- Warning text for orography below the lowest band. -/
def min_warning : String :=
  "The minimum orography is lower than the lowest band. This will potentially cause the topographic zone weights to not sum to 1 for a given grid point."

/-- The two non-fatal range warnings emitted by process. -/
def process_warnings (oro : ℕ → ℚ) (n : ℕ)
    (bands : List (ℚ × ℚ)) : List String :=
  (if npMax (oroList oro n) > npMax (bandsFlat bands) then [max_warning]
   else []) ++
  (if npMin (oroList oro n) < npMin (bandsFlat bands) then [min_warning]
   else [])

/-- The process method up to (and excluding) land-sea masking: the
dimensionality check on the orography shape, the range warnings, and
the weight volume.  The point count is the product of the shape. -/
def process (shape : List ℕ) (oro : ℕ → ℚ) (bands : List (ℚ × ℚ)) :
    Except String (List String × (ℕ → ℕ → ℚ)) :=
  if shape.length ≠ 2 then
    Except.error
      ("The input orography cube should be two-dimensional." ++
       "The input orography cube has " ++ toString shape.length ++
       " dimensions")
  else
    Except.ok (process_warnings oro shape.prod bands,
               topographic_zone_weights_data oro shape.prod bands)

/-- Modelled from the spec: GenerateOrographyBandAncils.sea_mask
(generate_ancillary.py, not under src/) masks out sea points of a
slice; land points keep their weight, sea points become masked. -/
def sea_mask (landmask : ℕ → Bool) (w : ℕ → ℚ) (i : ℕ) : Option ℚ :=
  if landmask i then some (w i) else none

/-- The process method including the optional land-sea masking step at
the end, applied independently to every band slice. -/
def process_full (shape : List ℕ) (oro : ℕ → ℚ) (bands : List (ℚ × ℚ))
    (landmask : Option (ℕ → Bool)) :
    Except String (List String × (ℕ → ℕ → Option ℚ)) :=
  match process shape oro bands with
  | Except.error e => Except.error e
  | Except.ok (ws, W) =>
      Except.ok (ws, fun b i =>
        match landmask with
        | some lm => sea_mask lm (W b) i
        | none => some (W b i))

/-- Bands are in ascending order with a nonempty interior: lower bound
strictly below upper bound in every band. -/
def AscendingBands (bands : List (ℚ × ℚ)) : Prop :=
  ∀ k : Fin bands.length, (bandAt bands k.val).1 < (bandAt bands k.val).2

instance (bands : List (ℚ × ℚ)) : Decidable (AscendingBands bands) := by
  unfold AscendingBands; infer_instance

/-- Bands are contiguous: each upper bound is the next lower bound. -/
def ContiguousBands (bands : List (ℚ × ℚ)) : Prop :=
  ∀ k : Fin bands.length, k.val + 1 < bands.length →
    (bandAt bands (k.val + 1)).1 = (bandAt bands k.val).2

instance (bands : List (ℚ × ℚ)) : Decidable (ContiguousBands bands) := by
  unfold ContiguousBands; infer_instance

/-- The value the algorithm leaves in slice s at a point whose
elevation v is a member of band b (and of no other band): derived
closed form used to characterise the fold. -/
def expectedVal (bands : List (ℚ × ℚ)) (b : ℕ) (v : ℚ) (s : ℕ) : ℚ :=
  let band := bandAt bands b
  let m := midpointOf band
  let L := bands.length - 1
  if s = b then
    if b = 0 ∧ v < m then 1
    else if b = L ∧ m < v then 1
    else calculate_weights v band.1 band.2
  else if b ≠ 0 ∧ s = b - 1 ∧ v < m then
    1 - calculate_weights v band.1 band.2
  else if b ≠ L ∧ s = b + 1 ∧ m < v then
    1 - calculate_weights v band.1 band.2
  else 0

/-- Modelled from the spec: the piecewise-linear interpolant through
the control points (lo, 0.5), (m, 1.0), (hi, 0.5), written from the
words of the spec for comparison with calculate_weights. -/
def spec_linear_interp (v lo hi : ℚ) : ℚ :=
  let m := (lo + hi) / 2
  if v ≤ m then 1 / 2 + (1 / 2) * (v - lo) / (m - lo)
  else 1 - (1 / 2) * (v - m) / (hi - m)

/-! Basic lemmas about the embedding. -/

lemma nanGT_orography_band (oro : ℕ → ℚ) (n : ℕ) (band : ℚ × ℚ)
    (i : ℕ) (m : ℚ) :
    nanGT (orography_band oro n band i) m = true ↔
      i < n ∧ inBand band (oro i) ∧ m < oro i := by
  unfold nanGT orography_band
  split_ifs with h
  · simp only [decide_eq_true_eq]
    constructor
    · exact fun hlt => ⟨h.1, h.2, hlt⟩
    · exact fun hc => hc.2.2
  · simp only [Bool.false_eq_true, false_iff]
    exact fun hc => h ⟨hc.1, hc.2.1⟩

lemma nanLT_orography_band (oro : ℕ → ℚ) (n : ℕ) (band : ℚ × ℚ)
    (i : ℕ) (m : ℚ) :
    nanLT (orography_band oro n band i) m = true ↔
      i < n ∧ inBand band (oro i) ∧ oro i < m := by
  unfold nanLT orography_band
  split_ifs with h
  · simp only [decide_eq_true_eq]
    constructor
    · exact fun hlt => ⟨h.1, h.2, hlt⟩
    · exact fun hc => hc.2.2
  · simp only [Bool.false_eq_true, false_iff]
    exact fun hc => h ⟨hc.1, hc.2.1⟩

lemma weightsAfter_succ (oro : ℕ → ℚ) (n : ℕ) (bands : List (ℚ × ℚ))
    (k : ℕ) :
    weightsAfter oro n bands (k + 1) =
      processBand oro n bands k (weightsAfter oro n bands k) := by
  unfold weightsAfter
  rw [List.range_succ, List.foldl_append]
  rfl

lemma topo_eq_weightsAfter (oro : ℕ → ℚ) (n : ℕ)
    (bands : List (ℚ × ℚ)) :
    topographic_zone_weights_data oro n bands =
      weightsAfter oro n bands bands.length := rfl

lemma processBand_not_member (oro : ℕ → ℚ) (n : ℕ)
    (bands : List (ℚ × ℚ)) (b : ℕ) (W : ℕ → ℕ → ℚ) (s i : ℕ)
    (h : ¬ (i < n ∧ inBand (bandAt bands b) (oro i))) :
    processBand oro n bands b W s i = W s i := by
  have hOB : orography_band oro n (bandAt bands b) i = none := by
    unfold orography_band
    exact if_neg h
  simp only [processBand, add_weight_to_upper_adjacent_band,
    add_weight_to_lower_adjacent_band, insert_band_weights, hOB]
  simp only [nanGT, nanLT, Bool.false_eq_true, and_false, if_false]
  split_ifs <;> first | rfl | tauto

set_option maxHeartbeats 2000000 in
lemma processBand_member_of_zero (oro : ℕ → ℚ) (n : ℕ)
    (bands : List (ℚ × ℚ)) (b : ℕ) (W : ℕ → ℕ → ℚ) (i : ℕ)
    (hin : i < n) (hmem : inBand (bandAt bands b) (oro i))
    (hz : ∀ t, W t i = 0) (s : ℕ) :
    processBand oro n bands b W s i = expectedVal bands b (oro i) s := by
  have hOB : orography_band oro n (bandAt bands b) i = some (oro i) := by
    unfold orography_band
    exact if_pos ⟨hin, hmem⟩
  set band := bandAt bands b with hband
  set v := oro i with hv
  set m := midpointOf band with hm
  set c := calculate_weights v band.1 band.2 with hc
  set L := bands.length - 1 with hL
  set W1 := insert_band_weights W n oro band b with hW1
  set W2 := add_weight_to_lower_adjacent_band W1 n
    (orography_band oro n band) m b with hW2
  have h1 : ∀ t, W1 t i = if t = b then c else 0 := by
    intro t
    rw [hW1]
    unfold insert_band_weights
    by_cases h : t = b
    · simp [h, hin, hmem, hc, hv]
    · simp [h, hz t]
  have h2 : ∀ t, W2 t i =
      if b = 0 then
        (if t = b ∧ v < m then 1 else W1 t i)
      else
        (if t = b - 1 ∧ v < m then 1 - c else W1 t i) := by
    intro t
    rw [hW2]
    unfold add_weight_to_lower_adjacent_band
    have hWb : W1 b i = c := by simp [h1]
    by_cases hb : b = 0 <;>
      simp [hb, hOB, nanLT, hin, hWb, hv]
  have h3 : processBand oro n bands b W s i =
      add_weight_to_upper_adjacent_band W2 n (orography_band oro n band) m b
        L s i := rfl
  rw [h3]
  unfold add_weight_to_upper_adjacent_band
  simp only [hOB, nanGT, hin, true_and, and_true, decide_eq_true_eq]
  simp only [h2, h1]
  simp only [expectedVal]
  rw [← hband, ← hm, ← hL, ← hc]
  split_ifs <;> first | rfl | tauto | omega | linarith

lemma weightsAfter_no_member (oro : ℕ → ℚ) (n : ℕ)
    (bands : List (ℚ × ℚ)) (i : ℕ) (k : ℕ)
    (h : ∀ b, b < k → ¬ (i < n ∧ inBand (bandAt bands b) (oro i))) :
    ∀ s, weightsAfter oro n bands k s i = 0 := by
  induction k with
  | zero => intro s; rfl
  | succ k ih =>
      intro s
      rw [weightsAfter_succ,
        processBand_not_member _ _ _ _ _ _ _ (h k (Nat.lt_succ_self k))]
      exact ih (fun b hb => h b (Nat.lt_succ_of_lt hb)) s

lemma weightsAfter_member (oro : ℕ → ℚ) (n : ℕ)
    (bands : List (ℚ × ℚ)) (i b : ℕ) (hin : i < n)
    (hmem : inBand (bandAt bands b) (oro i))
    (huniq : ∀ b2, b2 < bands.length → b2 ≠ b →
      ¬ inBand (bandAt bands b2) (oro i))
    (k : ℕ) (hk : k ≤ bands.length) (hbk : b < k) :
    ∀ s, weightsAfter oro n bands k s i = expectedVal bands b (oro i) s := by
  induction k with
  | zero => omega
  | succ k ih =>
      intro s
      rw [weightsAfter_succ]
      by_cases hbk2 : b = k
      · subst hbk2
        have hzero : ∀ t, weightsAfter oro n bands b t i = 0 := by
          apply weightsAfter_no_member
          intro b2 hb2 hcon
          exact huniq b2 (by omega) (by omega) hcon.2
        exact processBand_member_of_zero oro n bands b _ i hin hmem hzero s
      · have hknm : ¬ (i < n ∧ inBand (bandAt bands k) (oro i)) := by
          intro hcon
          exact huniq k (by omega) (fun he => hbk2 he.symm) hcon.2
        rw [processBand_not_member _ _ _ _ _ _ _ hknm]
        exact ih (by omega) (by omega) s

lemma data_of_member (oro : ℕ → ℚ) (n : ℕ) (bands : List (ℚ × ℚ))
    (i b : ℕ) (hin : i < n) (hb : b < bands.length)
    (hmem : inBand (bandAt bands b) (oro i))
    (huniq : ∀ b2, b2 < bands.length → b2 ≠ b →
      ¬ inBand (bandAt bands b2) (oro i)) (s : ℕ) :
    topographic_zone_weights_data oro n bands s i =
      expectedVal bands b (oro i) s := by
  rw [topo_eq_weightsAfter]
  exact weightsAfter_member oro n bands i b hin hmem huniq
    bands.length le_rfl hb s

lemma data_of_no_member (oro : ℕ → ℚ) (n : ℕ) (bands : List (ℚ × ℚ))
    (i : ℕ)
    (h : ∀ b, b < bands.length → ¬ (i < n ∧ inBand (bandAt bands b) (oro i)))
    (s : ℕ) :
    topographic_zone_weights_data oro n bands s i = 0 := by
  rw [topo_eq_weightsAfter]
  exact weightsAfter_no_member oro n bands i bands.length h s

/-! Structural lemmas about ascending contiguous band lists. -/

lemma band_hi_le_lo (bands : List (ℚ × ℚ)) (hA : AscendingBands bands)
    (hC : ContiguousBands bands) (a b : ℕ) (hab : a < b)
    (hb : b < bands.length) :
    (bandAt bands a).2 ≤ (bandAt bands b).1 := by
  induction b with
  | zero => omega
  | succ b ih =>
      have hblen : b < bands.length := by omega
      have hlo : (bandAt bands (b + 1)).1 = (bandAt bands b).2 :=
        hC ⟨b, hblen⟩ (show b + 1 < bands.length by omega)
      rcases Nat.lt_or_ge a b with h | h
      · have h1 := ih h hblen
        have h2 := hA ⟨b, hblen⟩
        rw [hlo]
        linarith
      · have hae : a = b := by omega
        subst hae
        rw [hlo]

lemma inBand_unique (bands : List (ℚ × ℚ)) (hA : AscendingBands bands)
    (hC : ContiguousBands bands) (v : ℚ) (b1 b2 : ℕ)
    (hb1 : b1 < bands.length) (hb2 : b2 < bands.length)
    (h1 : inBand (bandAt bands b1) v) (h2 : inBand (bandAt bands b2) v) :
    b1 = b2 := by
  by_contra hne
  rcases Nat.lt_or_ge b1 b2 with h | h
  · have := band_hi_le_lo bands hA hC b1 b2 h hb2
    have := h1.2
    have := h2.1
    linarith
  · have hlt : b2 < b1 := by omega
    have := band_hi_le_lo bands hA hC b2 b1 hlt hb1
    have := h2.2
    have := h1.1
    linarith

lemma exists_member_band (bands : List (ℚ × ℚ)) (hA : AscendingBands bands)
    (hC : ContiguousBands bands) (v : ℚ) (hN : 0 < bands.length)
    (hlo : (bandAt bands 0).1 < v)
    (hhi : v ≤ (bandAt bands (bands.length - 1)).2) :
    ∃ b, b < bands.length ∧ inBand (bandAt bands b) v := by
  have hex : ∃ b, b < bands.length ∧ v ≤ (bandAt bands b).2 :=
    ⟨bands.length - 1, by omega, hhi⟩
  obtain ⟨hblen, hble⟩ := Nat.find_spec hex
  rcases Nat.eq_zero_or_pos (Nat.find hex) with h0 | hpos
  · exact ⟨0, hN, by rw [← h0]; exact ⟨by rw [h0]; exact hlo, hble⟩⟩
  · have hc : Nat.find hex - 1 < Nat.find hex := by omega
    have hnot := Nat.find_min hex hc
    have hclen : Nat.find hex - 1 < bands.length := by omega
    have hcgt : ¬ v ≤ (bandAt bands (Nat.find hex - 1)).2 := by
      intro hcon
      exact hnot ⟨hclen, hcon⟩
    have hlo2 : (bandAt bands (Nat.find hex - 1 + 1)).1 =
        (bandAt bands (Nat.find hex - 1)).2 :=
      hC ⟨Nat.find hex - 1, hclen⟩
        (show Nat.find hex - 1 + 1 < bands.length by omega)
    refine ⟨Nat.find hex, hblen, ?_, hble⟩
    have hsucc : Nat.find hex - 1 + 1 = Nat.find hex := by omega
    rw [hsucc] at hlo2
    rw [hlo2]
    linarith

/-! Analytical lemmas about calculate_weights. -/

lemma inBand_lo_lt_hi (band : ℚ × ℚ) (v : ℚ) (h : inBand band v) :
    band.1 < band.2 :=
  lt_of_lt_of_le h.1 h.2

lemma calculate_weights_at_lo (v lo hi : ℚ) (h : v ≤ lo) :
    calculate_weights v lo hi = 1 / 2 := by
  simp only [calculate_weights]
  rw [if_pos h]

lemma calculate_weights_at_mid (lo hi : ℚ) (h : lo < hi) :
    calculate_weights ((lo + hi) / 2) lo hi = 1 := by
  simp only [calculate_weights]
  have h1 : ¬ ((lo + hi) / 2 ≤ lo) := by linarith
  simp [h1]

lemma calculate_weights_at_hi (lo hi : ℚ) (h : lo < hi) :
    calculate_weights hi lo hi = 1 / 2 := by
  simp only [calculate_weights]
  have h1 : ¬ (hi ≤ lo) := by linarith
  have h2 : ¬ (hi < (lo + hi) / 2) := by linarith
  have h3 : ¬ (hi = (lo + hi) / 2) := by intro hc; linarith
  simp [h1, h2, h3]

lemma calculate_weights_interior (v lo hi : ℚ) (h1 : lo < v) (h2 : v < hi) :
    1 / 2 < calculate_weights v lo hi ∧ calculate_weights v lo hi ≤ 1 ∧
      (calculate_weights v lo hi = 1 ↔ v = (lo + hi) / 2) := by
  simp only [calculate_weights]
  have hnle : ¬ (v ≤ lo) := by linarith
  rw [if_neg hnle]
  by_cases hvm : v < (lo + hi) / 2
  · rw [if_pos hvm]
    have key : 1 / 2 + (1 - 1 / 2) / ((lo + hi) / 2 - lo) * (v - lo) =
        1 / 2 + 1 / 2 * ((v - lo) / ((lo + hi) / 2 - lo)) := by ring
    rw [key]
    have hr0 : (0:ℚ) < (v - lo) / ((lo + hi) / 2 - lo) :=
      div_pos (by linarith) (by linarith)
    have hr1 : (v - lo) / ((lo + hi) / 2 - lo) < 1 := by
      rw [div_lt_one (by linarith)]
      linarith
    refine ⟨by linarith, by linarith, ?_⟩
    constructor
    · intro hc; exfalso; linarith
    · intro hc; exfalso; linarith
  · rw [if_neg hvm]
    by_cases hve : v = (lo + hi) / 2
    · rw [if_pos hve]
      exact ⟨by norm_num, le_refl 1, by simp [hve]⟩
    · rw [if_neg hve, if_pos h2]
      have hmv : (lo + hi) / 2 < v := by
        rcases lt_trichotomy v ((lo + hi) / 2) with h | h | h
        · exact absurd h hvm
        · exact absurd h hve
        · exact h
      have key : 1 + (1 / 2 - 1) / (hi - (lo + hi) / 2) * (v - (lo + hi) / 2)
          = 1 - 1 / 2 * ((v - (lo + hi) / 2) / (hi - (lo + hi) / 2)) := by
        ring
      rw [key]
      have hr0 : (0:ℚ) < (v - (lo + hi) / 2) / (hi - (lo + hi) / 2) :=
        div_pos (by linarith) (by linarith)
      have hr1 : (v - (lo + hi) / 2) / (hi - (lo + hi) / 2) < 1 := by
        rw [div_lt_one (by linarith)]
        linarith
      refine ⟨by linarith, by linarith, ?_⟩
      constructor
      · intro hc; exfalso; linarith
      · intro hc; exfalso; linarith

lemma calculate_weights_le_one (v lo hi : ℚ) (h1 : lo < v) (h2 : v ≤ hi) :
    1 / 2 ≤ calculate_weights v lo hi ∧ calculate_weights v lo hi ≤ 1 := by
  rcases eq_or_lt_of_le h2 with he | hlt
  · rw [he, calculate_weights_at_hi lo hi (by linarith)]
    norm_num
  · obtain ⟨ha, hb, _⟩ := calculate_weights_interior v lo hi h1 hlt
    exact ⟨le_of_lt ha, hb⟩

lemma calculate_weights_eq_interp (v lo hi : ℚ) (h : lo < hi)
    (h1 : lo ≤ v) (h2 : v ≤ hi) :
    calculate_weights v lo hi = spec_linear_interp v lo hi := by
  simp only [calculate_weights, spec_linear_interp]
  by_cases hv1 : v ≤ lo
  · have hveq : v = lo := le_antisymm hv1 h1
    rw [if_pos hv1, if_pos (by linarith : v ≤ (lo + hi) / 2), hveq]
    simp
  · rw [if_neg hv1]
    by_cases hv2 : v < (lo + hi) / 2
    · rw [if_pos hv2, if_pos (le_of_lt hv2)]
      ring
    · rw [if_neg hv2]
      by_cases hv3 : v = (lo + hi) / 2
      · rw [if_pos hv3, if_pos (le_of_eq hv3), hv3]
        have hne : (lo + hi) / 2 - lo ≠ 0 := by
          intro hc; rw [sub_eq_zero] at hc; linarith
        rw [mul_div_assoc, div_self hne]
        norm_num
      · rw [if_neg hv3]
        have hmv : (lo + hi) / 2 < v := by
          rcases lt_trichotomy v ((lo + hi) / 2) with hx | hx | hx
          · exact absurd hx hv2
          · exact absurd hx hv3
          · exact hx
        rw [if_neg (by linarith : ¬ (v ≤ (lo + hi) / 2))]
        by_cases hv4 : v < hi
        · rw [if_pos hv4]
          ring
        · rw [if_neg hv4]
          have hveq : v = hi := le_antisymm h2 (le_of_not_lt hv4)
          rw [hveq]
          have hne : hi - (lo + hi) / 2 ≠ 0 := by
            intro hc; rw [sub_eq_zero] at hc; linarith
          rw [mul_div_assoc, div_self hne]
          norm_num

/-! Expansion lemmas for expectedVal. -/

lemma expectedVal_self (bands : List (ℚ × ℚ)) (b : ℕ) (v : ℚ) :
    expectedVal bands b v b =
      if b = 0 ∧ v < midpointOf (bandAt bands b) then 1
      else if b = bands.length - 1 ∧ midpointOf (bandAt bands b) < v then 1
      else calculate_weights v (bandAt bands b).1 (bandAt bands b).2 := by
  simp [expectedVal]

lemma expectedVal_below (bands : List (ℚ × ℚ)) (b : ℕ) (v : ℚ)
    (hb : 0 < b) (hvm : v < midpointOf (bandAt bands b)) :
    expectedVal bands b v (b - 1) =
      1 - calculate_weights v (bandAt bands b).1 (bandAt bands b).2 := by
  simp only [expectedVal]
  rw [if_neg (by omega : ¬ (b - 1 = b))]
  rw [if_pos ⟨by omega, trivial, hvm⟩]

lemma expectedVal_above (bands : List (ℚ × ℚ)) (b : ℕ) (v : ℚ)
    (hbL : b ≠ bands.length - 1) (hmv : midpointOf (bandAt bands b) < v) :
    expectedVal bands b v (b + 1) =
      1 - calculate_weights v (bandAt bands b).1 (bandAt bands b).2 := by
  simp only [expectedVal]
  rw [if_neg (by omega : ¬ (b + 1 = b))]
  rw [if_neg (fun hc => by omega : ¬ (b ≠ 0 ∧ b + 1 = b - 1 ∧
    v < midpointOf (bandAt bands b)))]
  rw [if_pos ⟨hbL, trivial, hmv⟩]

lemma expectedVal_zero_of_ne (bands : List (ℚ × ℚ)) (b : ℕ) (v : ℚ)
    (s : ℕ) (h1 : s ≠ b)
    (h2 : ¬ (b ≠ 0 ∧ s = b - 1 ∧ v < midpointOf (bandAt bands b)))
    (h3 : ¬ (b ≠ bands.length - 1 ∧ s = b + 1 ∧
      midpointOf (bandAt bands b) < v)) :
    expectedVal bands b v s = 0 := by
  simp only [expectedVal]
  rw [if_neg h1, if_neg h2, if_neg h3]

/-! Claim theorems. -/

/-- C6: process raises the dimensionality error exactly when the orography
shape is not 2-dimensional (and then produces no partial output), and for
every 2-dimensional orography the check passes and a complete result is
returned. -/
theorem claim_C6_dimensionality (shape : List ℕ) (oro : ℕ → ℚ)
    (bands : List (ℚ × ℚ)) :
    ((∃ e, process shape oro bands = Except.error e) ↔ shape.length ≠ 2) ∧
    (shape.length = 2 →
      process shape oro bands =
        Except.ok (process_warnings oro shape.prod bands,
          topographic_zone_weights_data oro shape.prod bands)) := by
  constructor
  · constructor
    · rintro ⟨e, he⟩ h2
      unfold process at he
      rw [if_neg (by simp [h2])] at he
      simp at he
    · intro h2
      refine ⟨"The input orography cube should be two-dimensional." ++
        "The input orography cube has " ++ toString shape.length ++
        " dimensions", ?_⟩
      unfold process
      rw [if_pos h2]
  · intro h2
    unfold process
    rw [if_neg (by simp [h2])]

/-- C8: process with identical orography, thresholds and landmask inputs
returns identical weight volumes; no hidden state influences the result. -/
theorem claim_C8_deterministic (shape1 shape2 : List ℕ)
    (oro1 oro2 : ℕ → ℚ) (bands1 bands2 : List (ℚ × ℚ))
    (lm1 lm2 : Option (ℕ → Bool))
    (hs : shape1 = shape2) (ho : oro1 = oro2) (hb : bands1 = bands2)
    (hl : lm1 = lm2) :
    process_full shape1 oro1 bands1 lm1 =
      process_full shape2 oro2 bands2 lm2 := by
  rw [hs, ho, hb, hl]

/-- Witness for C8 at concrete inputs. -/
theorem claim_C8_witness :
    process_full [1, 1] (fun _ => 25) [((0:ℚ), 50)] none =
      process_full [1, 1] (fun _ => 25) [((0:ℚ), 50)] none :=
  claim_C8_deterministic _ _ _ _ _ _ _ _ rfl rfl rfl rfl

/-- C9: with exactly one band, every member point of that band ends with
weight exactly 1 in the single band slice of the unmasked volume. -/
theorem claim_C9_single_band (oro : ℕ → ℚ) (n : ℕ) (band : ℚ × ℚ)
    (i : ℕ) (hin : i < n) (hmem : inBand band (oro i)) :
    topographic_zone_weights_data oro n [band] 0 i = 1 := by
  have hb : bandAt [band] 0 = band := rfl
  have hmem2 : inBand (bandAt [band] 0) (oro i) := by rw [hb]; exact hmem
  have huniq : ∀ b2, b2 < ([band] : List (ℚ × ℚ)).length → b2 ≠ 0 →
      ¬ inBand (bandAt [band] b2) (oro i) := by
    intro b2 h hne
    simp at h
    exact absurd h hne
  rw [data_of_member oro n [band] i 0 hin (by simp) hmem2 huniq 0]
  rw [expectedVal_self]
  rcases lt_trichotomy (oro i) (midpointOf (bandAt [band] 0)) with hv | hv | hv
  · rw [if_pos ⟨rfl, hv⟩]
  · rw [if_neg (fun hc => absurd hv (ne_of_lt hc.2))]
    rw [if_neg (fun hc => absurd hv.symm (ne_of_lt hc.2))]
    rw [hb] at hv ⊢
    rw [hv]
    exact calculate_weights_at_mid band.1 band.2
      (inBand_lo_lt_hi band (oro i) hmem)
  · rw [if_neg (fun hc => absurd hc.2 (lt_asymm hv))]
    rw [if_pos ⟨rfl, hv⟩]

/-- Witness for C9: band [0, 100], elevation 10. -/
theorem claim_C9_witness :
    topographic_zone_weights_data (fun _ => 10) 1 [((0:ℚ), 100)] 0 0 = 1 :=
  claim_C9_single_band (fun _ => 10) 1 ((0:ℚ), 100) 0 (by decide) (by decide)

/-- C10: a point whose elevation equals the lowest lower bound is a member
of no band, so the unmasked volume holds weight 0 for it in every slice. -/
theorem claim_C10_lowest_bound (oro : ℕ → ℚ) (n : ℕ)
    (bands : List (ℚ × ℚ)) (i : ℕ) (hA : AscendingBands bands)
    (hC : ContiguousBands bands) (hin : i < n)
    (heq : oro i = (bandAt bands 0).1) (s : ℕ) :
    topographic_zone_weights_data oro n bands s i = 0 := by
  apply data_of_no_member
  intro b hb hcon
  rcases Nat.eq_zero_or_pos b with h0 | hpos
  · subst h0
    have := hcon.2.1
    rw [heq] at this
    exact lt_irrefl _ this
  · have h1 := band_hi_le_lo bands hA hC 0 b hpos hb
    have h2 := hA ⟨0, by omega⟩
    have h3 := hcon.2.1
    rw [heq] at h3
    linarith

/-- Witness for C10: bands [[0,50],[50,100]], elevation exactly 0. -/
theorem claim_C10_witness :
    topographic_zone_weights_data (fun _ => 0) 1
      [((0:ℚ), 50), (50, 100)] 0 0 = 0 :=
  claim_C10_lowest_bound (fun _ => 0) 1 [((0:ℚ), 50), (50, 100)] 0
    (by decide) (by decide) (by decide) (by decide) 0

/-- C2: for every band [lo, hi] with midpoint m = (lo + hi) / 2 and every
point value p with lo ≤ p ≤ hi, calculate_weights equals the
piecewise-linear interpolation through (lo, 0.5), (m, 1.0), (hi, 0.5):
exactly 1 at the midpoint, exactly 0.5 at both edges, and the linear
interpolant in between. -/
theorem claim_C2_calculate_weights (p lo hi : ℚ) (hband : lo < hi)
    (h1 : lo ≤ p) (h2 : p ≤ hi) :
    calculate_weights p lo hi = spec_linear_interp p lo hi ∧
    calculate_weights ((lo + hi) / 2) lo hi = 1 ∧
    calculate_weights lo lo hi = 1 / 2 ∧
    calculate_weights hi lo hi = 1 / 2 :=
  ⟨calculate_weights_eq_interp p lo hi hband h1 h2,
   calculate_weights_at_mid lo hi hband,
   calculate_weights_at_lo lo lo hi le_rfl,
   calculate_weights_at_hi lo hi hband⟩

/-- Witness for C2 at the band [0, 100] and point 30. -/
theorem claim_C2_witness :
    (0:ℚ) < 100 ∧
    (calculate_weights 30 0 100 = spec_linear_interp 30 0 100 ∧
     calculate_weights ((0 + 100) / 2) 0 100 = 1 ∧
     calculate_weights 0 0 100 = 1 / 2 ∧
     calculate_weights 100 0 100 = 1 / 2) :=
  ⟨by norm_num,
   claim_C2_calculate_weights 30 0 100 (by norm_num) (by norm_num)
     (by norm_num)⟩

/-- C4: edge clamps of the unmasked volume: a member of the lowest band
strictly below its midpoint ends with weight exactly 1 in band 0, and a
member of the highest band strictly above its midpoint ends with weight
exactly 1 in band N-1. -/
theorem claim_C4_edge_clamp (oro : ℕ → ℚ) (n : ℕ)
    (bands : List (ℚ × ℚ)) (i : ℕ) (hA : AscendingBands bands)
    (hC : ContiguousBands bands) (hN : 0 < bands.length) (hin : i < n) :
    (inBand (bandAt bands 0) (oro i) →
      oro i < midpointOf (bandAt bands 0) →
      topographic_zone_weights_data oro n bands 0 i = 1) ∧
    (inBand (bandAt bands (bands.length - 1)) (oro i) →
      midpointOf (bandAt bands (bands.length - 1)) < oro i →
      topographic_zone_weights_data oro n bands (bands.length - 1) i = 1) := by
  constructor
  · intro hmem hv
    have huniq : ∀ b2, b2 < bands.length → b2 ≠ 0 →
        ¬ inBand (bandAt bands b2) (oro i) :=
      fun b2 hb2 hne hcon =>
        hne (inBand_unique bands hA hC (oro i) b2 0 hb2 hN hcon hmem)
    rw [data_of_member oro n bands i 0 hin hN hmem huniq 0,
      expectedVal_self]
    rw [if_pos ⟨rfl, hv⟩]
  · intro hmem hv
    have hL : bands.length - 1 < bands.length := by omega
    have huniq : ∀ b2, b2 < bands.length → b2 ≠ bands.length - 1 →
        ¬ inBand (bandAt bands b2) (oro i) :=
      fun b2 hb2 hne hcon =>
        hne (inBand_unique bands hA hC (oro i) b2 (bands.length - 1)
          hb2 hL hcon hmem)
    rw [data_of_member oro n bands i (bands.length - 1) hin hL hmem huniq _,
      expectedVal_self]
    rw [if_neg (fun hc => absurd hc.2 (lt_asymm hv))]
    rw [if_pos ⟨rfl, hv⟩]

/-- Witness for C4: bands [[0,50],[50,100]], elevation 10 (lowest band,
below its midpoint 25). -/
theorem claim_C4_witness :
    topographic_zone_weights_data (fun _ => 10) 1
      [((0:ℚ), 50), (50, 100)] 0 0 = 1 :=
  (claim_C4_edge_clamp (fun _ => 10) 1 [((0:ℚ), 50), (50, 100)] 0
    (by decide) (by decide) (by decide) (by decide)).1 (by decide)
    (by norm_num [midpointOf, bandAt])

/-- C3: interior adjacency residual: a member point of band b strictly
below the band midpoint leaves 1 minus its band-b weight in band b-1 (for
0 < b); strictly above the midpoint it leaves 1 minus its band-b weight
in band b+1 (for b < N-1); exactly at the midpoint neither adjacent band
receives anything. -/
theorem claim_C3_adjacent_residual (oro : ℕ → ℚ) (n : ℕ)
    (bands : List (ℚ × ℚ)) (i b : ℕ) (hA : AscendingBands bands)
    (hC : ContiguousBands bands) (hb : b < bands.length) (hin : i < n)
    (hmem : inBand (bandAt bands b) (oro i)) :
    (0 < b → oro i < midpointOf (bandAt bands b) →
      topographic_zone_weights_data oro n bands (b - 1) i =
        1 - topographic_zone_weights_data oro n bands b i) ∧
    (b < bands.length - 1 → midpointOf (bandAt bands b) < oro i →
      topographic_zone_weights_data oro n bands (b + 1) i =
        1 - topographic_zone_weights_data oro n bands b i) ∧
    (oro i = midpointOf (bandAt bands b) →
      (0 < b → topographic_zone_weights_data oro n bands (b - 1) i = 0) ∧
      (b < bands.length - 1 →
        topographic_zone_weights_data oro n bands (b + 1) i = 0)) := by
  have huniq : ∀ b2, b2 < bands.length → b2 ≠ b →
      ¬ inBand (bandAt bands b2) (oro i) :=
    fun b2 hb2 hne hcon =>
      hne (inBand_unique bands hA hC (oro i) b2 b hb2 hb hcon hmem)
  have hdat : ∀ s, topographic_zone_weights_data oro n bands s i =
      expectedVal bands b (oro i) s :=
    data_of_member oro n bands i b hin hb hmem huniq
  refine ⟨?_, ?_, ?_⟩
  · intro hb0 hv
    rw [hdat (b - 1), hdat b, expectedVal_below bands b _ hb0 hv,
      expectedVal_self]
    rw [if_neg (fun hc => absurd hc.1 (by omega))]
    rw [if_neg (fun hc => absurd hc.2 (lt_asymm hv))]
  · intro hbL hv
    have hbL2 : b ≠ bands.length - 1 := by omega
    rw [hdat (b + 1), hdat b, expectedVal_above bands b _ hbL2 hv,
      expectedVal_self]
    rw [if_neg (fun hc => absurd hc.2 (lt_asymm hv))]
    rw [if_neg (fun hc => absurd hc.1 hbL2)]
  · intro hveq
    constructor
    · intro hb0
      rw [hdat (b - 1)]
      apply expectedVal_zero_of_ne
      · omega
      · intro hc
        rw [hveq] at hc
        exact lt_irrefl _ hc.2.2
      · intro hc
        exact absurd hc.2.1 (by omega)
    · intro hbL
      rw [hdat (b + 1)]
      apply expectedVal_zero_of_ne
      · omega
      · intro hc
        exact absurd hc.2.1 (by omega)
      · intro hc
        rw [hveq] at hc
        exact lt_irrefl _ hc.2.2

/-- Witness for C3: bands [[0,50],[50,100],[100,150]], elevation 60 in the
middle band, below its midpoint 75: band 0 receives 1 minus the band-1
weight. -/
theorem claim_C3_witness :
    topographic_zone_weights_data (fun _ => 60) 1
      [((0:ℚ), 50), (50, 100), (100, 150)] 0 0 =
      1 - topographic_zone_weights_data (fun _ => 60) 1
        [((0:ℚ), 50), (50, 100), (100, 150)] 1 0 :=
  (claim_C3_adjacent_residual (fun _ => 60) 1
    [((0:ℚ), 50), (50, 100), (100, 150)] 0 1 (by decide) (by decide)
    (by decide) (by decide) (by decide)).1 (by decide)
    (by norm_num [midpointOf, bandAt])

/-- C5 counterexample: bands [[0,100]], elevation 10 is strictly inside
the band interior and is not the midpoint 50, yet its final weight in the
band slice is exactly 1 (the lowest-band edge clamp overwrites the
interpolated weight), refuting that weight 1 occurs only at the exact
midpoint. -/
theorem claim_C5_counterexample :
    (0:ℚ) < 10 ∧ (10:ℚ) < 100 ∧
    topographic_zone_weights_data (fun _ => 10) 1 [((0:ℚ), 100)] 0 0 = 1 ∧
    (10:ℚ) ≠ midpointOf (bandAt [((0:ℚ), 100)] 0) := by
  refine ⟨by norm_num, by norm_num, ?_, by norm_num [midpointOf, bandAt]⟩
  have hmem : inBand (bandAt [((0:ℚ), 100)] 0) ((fun _ => (10:ℚ)) 0) := by
    decide
  have huniq : ∀ b2, b2 < ([((0:ℚ), 100)] : List (ℚ × ℚ)).length →
      b2 ≠ 0 → ¬ inBand (bandAt [((0:ℚ), 100)] b2) ((fun _ => (10:ℚ)) 0) := by
    intro b2 h hne
    simp at h
    exact absurd h hne
  rw [data_of_member (fun _ => 10) 1 [((0:ℚ), 100)] 0 0 (by decide)
    (by decide) hmem huniq 0, expectedVal_self]
  rw [if_pos ⟨rfl, by norm_num [midpointOf, bandAt]⟩]

/-- C5 amended: for a grid point strictly inside a band interior the
weight in that band slice of the unmasked volume lies in (0.5, 1.0], and
it equals 1.0 exactly when the elevation is the band midpoint or the
point falls under an edge clamp (lowest band below its midpoint, or
highest band above its midpoint). -/
theorem claim_C5_amended (oro : ℕ → ℚ) (n : ℕ) (bands : List (ℚ × ℚ))
    (i b : ℕ) (hA : AscendingBands bands) (hC : ContiguousBands bands)
    (hb : b < bands.length) (hin : i < n)
    (hlo : (bandAt bands b).1 < oro i) (hhi : oro i < (bandAt bands b).2) :
    (1 / 2 < topographic_zone_weights_data oro n bands b i ∧
     topographic_zone_weights_data oro n bands b i ≤ 1) ∧
    (topographic_zone_weights_data oro n bands b i = 1 ↔
      (oro i = midpointOf (bandAt bands b) ∨
       (b = 0 ∧ oro i < midpointOf (bandAt bands b)) ∨
       (b = bands.length - 1 ∧ midpointOf (bandAt bands b) < oro i))) := by
  have hmem : inBand (bandAt bands b) (oro i) := ⟨hlo, le_of_lt hhi⟩
  have huniq : ∀ b2, b2 < bands.length → b2 ≠ b →
      ¬ inBand (bandAt bands b2) (oro i) :=
    fun b2 hb2 hne hcon =>
      hne (inBand_unique bands hA hC (oro i) b2 b hb2 hb hcon hmem)
  have hdat := data_of_member oro n bands i b hin hb hmem huniq b
  rw [hdat, expectedVal_self]
  obtain ⟨hgt, hle, hiff⟩ :=
    calculate_weights_interior (oro i) (bandAt bands b).1 (bandAt bands b).2
      hlo hhi
  have hmid : midpointOf (bandAt bands b) =
      ((bandAt bands b).1 + (bandAt bands b).2) / 2 := rfl
  by_cases hc1 : b = 0 ∧ oro i < midpointOf (bandAt bands b)
  · rw [if_pos hc1]
    refine ⟨⟨by norm_num, le_refl 1⟩, ?_⟩
    constructor
    · intro _
      exact Or.inr (Or.inl hc1)
    · intro _
      rfl
  · rw [if_neg hc1]
    by_cases hc2 : b = bands.length - 1 ∧
        midpointOf (bandAt bands b) < oro i
    · rw [if_pos hc2]
      refine ⟨⟨by norm_num, le_refl 1⟩, ?_⟩
      constructor
      · intro _
        exact Or.inr (Or.inr hc2)
      · intro _
        rfl
    · rw [if_neg hc2]
      refine ⟨⟨hgt, hle⟩, ?_⟩
      constructor
      · intro hc
        refine Or.inl ?_
        rw [hmid]
        exact hiff.mp hc
      · rintro (hc | hc | hc)
        · apply hiff.mpr
          rw [hmid] at hc
          exact hc
        · exact absurd hc hc1
        · exact absurd hc hc2

/-- Witness for C5 amended: bands [[0,50],[50,100]], elevation 60 in band
1, interior, not a clamp case: weight is strictly between 0.5 and 1. -/
theorem claim_C5_amended_witness :
    1 / 2 < topographic_zone_weights_data (fun _ => 60) 1
      [((0:ℚ), 50), (50, 100)] 1 0 ∧
    topographic_zone_weights_data (fun _ => 60) 1
      [((0:ℚ), 50), (50, 100)] 1 0 ≤ 1 :=
  (claim_C5_amended (fun _ => 60) 1 [((0:ℚ), 50), (50, 100)] 0 1
    (by decide) (by decide) (by decide) (by decide) (by decide)
    (by decide)).1

/-- C1: for every grid point whose elevation lies strictly above the
lowest lower bound and at most the highest upper bound, with contiguous
ascending bands, the weights over all band slices of the unmasked volume
sum to exactly 1. -/
theorem claim_C1_weight_sum (oro : ℕ → ℚ) (n : ℕ) (bands : List (ℚ × ℚ))
    (i : ℕ) (hA : AscendingBands bands) (hC : ContiguousBands bands)
    (hN : 0 < bands.length) (hin : i < n)
    (hlo : (bandAt bands 0).1 < oro i)
    (hhi : oro i ≤ (bandAt bands (bands.length - 1)).2) :
    ∑ s ∈ Finset.range bands.length,
      topographic_zone_weights_data oro n bands s i = 1 := by
  obtain ⟨b, hb, hmem⟩ := exists_member_band bands hA hC (oro i) hN hlo hhi
  have huniq : ∀ b2, b2 < bands.length → b2 ≠ b →
      ¬ inBand (bandAt bands b2) (oro i) :=
    fun b2 hb2 hne hcon =>
      hne (inBand_unique bands hA hC (oro i) b2 b hb2 hb hcon hmem)
  have hdat : ∀ s, topographic_zone_weights_data oro n bands s i =
      expectedVal bands b (oro i) s :=
    data_of_member oro n bands i b hin hb hmem huniq
  rw [Finset.sum_congr rfl (fun s _ => hdat s)]
  have hlh := inBand_lo_lt_hi _ _ hmem
  have hmid : midpointOf (bandAt bands b) =
      ((bandAt bands b).1 + (bandAt bands b).2) / 2 := rfl
  rcases lt_trichotomy (oro i) (midpointOf (bandAt bands b)) with hv | hv | hv
  · by_cases hb0 : b = 0
    · rw [Finset.sum_eq_single_of_mem b (Finset.mem_range.mpr hb)
        (fun s hs hne => expectedVal_zero_of_ne bands b (oro i) s hne
          (fun hc => hc.1 hb0)
          (fun hc => absurd hc.2.2 (lt_asymm hv)))]
      rw [expectedVal_self, if_pos ⟨hb0, hv⟩]
    · rw [Finset.sum_eq_add_of_mem (b - 1) b
        (Finset.mem_range.mpr (by omega)) (Finset.mem_range.mpr hb)
        (by omega)
        (fun c hcmem hcne => expectedVal_zero_of_ne bands b (oro i) c hcne.2
          (fun hc => hcne.1 hc.2.1)
          (fun hc => absurd hc.2.2 (lt_asymm hv)))]
      rw [expectedVal_below bands b _ (by omega) hv, expectedVal_self]
      rw [if_neg (fun hc => hb0 hc.1)]
      rw [if_neg (fun hc => absurd hc.2 (lt_asymm hv))]
      ring
  · rw [Finset.sum_eq_single_of_mem b (Finset.mem_range.mpr hb)
      (fun s hs hne => expectedVal_zero_of_ne bands b (oro i) s hne
        (fun hc => absurd (hv ▸ hc.2.2) (lt_irrefl _))
        (fun hc => absurd (hv ▸ hc.2.2) (lt_irrefl _)))]
    rw [expectedVal_self]
    rw [if_neg (fun hc => absurd (hv ▸ hc.2) (lt_irrefl _))]
    rw [if_neg (fun hc => absurd (hv ▸ hc.2) (lt_irrefl _))]
    rw [hv, hmid]
    exact calculate_weights_at_mid _ _ hlh
  · by_cases hbL : b = bands.length - 1
    · rw [Finset.sum_eq_single_of_mem b (Finset.mem_range.mpr hb)
        (fun s hs hne => expectedVal_zero_of_ne bands b (oro i) s hne
          (fun hc => absurd hc.2.2 (lt_asymm hv))
          (fun hc => hc.1 hbL))]
      rw [expectedVal_self]
      rw [if_neg (fun hc => absurd hc.2 (lt_asymm hv))]
      rw [if_pos ⟨hbL, hv⟩]
    · rw [Finset.sum_eq_add_of_mem b (b + 1)
        (Finset.mem_range.mpr hb) (Finset.mem_range.mpr (by omega))
        (by omega)
        (fun c hcmem hcne => expectedVal_zero_of_ne bands b (oro i) c hcne.1
          (fun hc => absurd hc.2.2 (lt_asymm hv))
          (fun hc => hcne.2 hc.2.1))]
      rw [expectedVal_above bands b _ hbL hv, expectedVal_self]
      rw [if_neg (fun hc => absurd hc.2 (lt_asymm hv))]
      rw [if_neg (fun hc => hbL hc.1)]
      ring

/-- Witness for C1: bands [[0,50],[50,100]], elevation 60, a full column
sums to 1. -/
theorem claim_C1_witness :
    ∑ s ∈ Finset.range 2, topographic_zone_weights_data (fun _ => 60) 1
      [((0:ℚ), 50), (50, 100)] s 0 = 1 :=
  claim_C1_weight_sum (fun _ => 60) 1 [((0:ℚ), 50), (50, 100)] 0
    (by decide) (by decide) (by decide) (by decide) (by decide) (by decide)

/-! Lemmas for np.max and np.min over lists. -/

lemma foldl_max_init_le (xs : List ℚ) (a : ℚ) : a ≤ xs.foldl max a := by
  induction xs generalizing a with
  | nil => exact le_refl a
  | cons y ys ih => exact le_trans (le_max_left a y) (ih (max a y))

lemma le_foldl_max_of_mem (xs : List ℚ) (a x : ℚ) (hx : x ∈ xs) :
    x ≤ xs.foldl max a := by
  induction xs generalizing a with
  | nil => cases hx
  | cons y ys ih =>
      rcases List.mem_cons.mp hx with he | hm
      · subst he
        exact le_trans (le_max_right a x) (foldl_max_init_le ys (max a x))
      · exact ih (max a y) hm

lemma foldl_max_mem (xs : List ℚ) (a : ℚ) : xs.foldl max a ∈ a :: xs := by
  induction xs generalizing a with
  | nil => exact List.mem_singleton.mpr rfl
  | cons y ys ih =>
      simp only [List.foldl_cons]
      rcases List.mem_cons.mp (ih (max a y)) with he | hm
      · rcases max_choice a y with hc | hc
        · rw [he, hc]
          exact List.mem_cons_self a (y :: ys)
        · rw [he, hc]
          exact List.mem_cons.mpr (Or.inr (List.mem_cons_self y ys))
      · exact List.mem_cons.mpr (Or.inr (List.mem_cons.mpr (Or.inr hm)))

lemma foldl_min_le_init (xs : List ℚ) (a : ℚ) : xs.foldl min a ≤ a := by
  induction xs generalizing a with
  | nil => exact le_refl a
  | cons y ys ih => exact le_trans (ih (min a y)) (min_le_left a y)

lemma foldl_min_le_of_mem (xs : List ℚ) (a x : ℚ) (hx : x ∈ xs) :
    xs.foldl min a ≤ x := by
  induction xs generalizing a with
  | nil => cases hx
  | cons y ys ih =>
      rcases List.mem_cons.mp hx with he | hm
      · subst he
        exact le_trans (foldl_min_le_init ys (min a x)) (min_le_right a x)
      · exact ih (min a y) hm

lemma foldl_min_mem (xs : List ℚ) (a : ℚ) : xs.foldl min a ∈ a :: xs := by
  induction xs generalizing a with
  | nil => exact List.mem_singleton.mpr rfl
  | cons y ys ih =>
      simp only [List.foldl_cons]
      rcases List.mem_cons.mp (ih (min a y)) with he | hm
      · rcases min_choice a y with hc | hc
        · rw [he, hc]
          exact List.mem_cons_self a (y :: ys)
        · rw [he, hc]
          exact List.mem_cons.mpr (Or.inr (List.mem_cons_self y ys))
      · exact List.mem_cons.mpr (Or.inr (List.mem_cons.mpr (Or.inr hm)))

lemma npMax_mem (l : List ℚ) (h : l ≠ []) : npMax l ∈ l := by
  cases l with
  | nil => exact absurd rfl h
  | cons x xs => exact foldl_max_mem xs x

lemma le_npMax (l : List ℚ) (x : ℚ) (hx : x ∈ l) : x ≤ npMax l := by
  cases l with
  | nil => cases hx
  | cons y ys =>
      rcases List.mem_cons.mp hx with he | hm
      · subst he
        exact foldl_max_init_le ys x
      · exact le_foldl_max_of_mem ys y x hm

lemma npMin_mem (l : List ℚ) (h : l ≠ []) : npMin l ∈ l := by
  cases l with
  | nil => exact absurd rfl h
  | cons x xs => exact foldl_min_mem xs x

lemma npMin_le (l : List ℚ) (x : ℚ) (hx : x ∈ l) : npMin l ≤ x := by
  cases l with
  | nil => cases hx
  | cons y ys =>
      rcases List.mem_cons.mp hx with he | hm
      · subst he
        exact foldl_min_le_init ys x
      · exact foldl_min_le_of_mem ys y x hm

lemma mem_bandsFlat_iff (bands : List (ℚ × ℚ)) (x : ℚ) :
    x ∈ bandsFlat bands ↔ ∃ p ∈ bands, x = p.1 ∨ x = p.2 := by
  unfold bandsFlat
  simp [List.mem_flatMap]

lemma mem_bands_index (bands : List (ℚ × ℚ)) (p : ℚ × ℚ)
    (hp : p ∈ bands) : ∃ k, k < bands.length ∧ bandAt bands k = p := by
  obtain ⟨k, hk, he⟩ := List.mem_iff_getElem.mp hp
  refine ⟨k, hk, ?_⟩
  unfold bandAt
  rw [List.getD_eq_getElem bands (0, 0) hk]
  exact he

lemma bandAt_mem (bands : List (ℚ × ℚ)) (k : ℕ) (hk : k < bands.length) :
    bandAt bands k ∈ bands := by
  unfold bandAt
  rw [List.getD_eq_getElem bands (0, 0) hk]
  exact List.getElem_mem hk

lemma bandsFlat_ne_nil (bands : List (ℚ × ℚ)) (hN : 0 < bands.length) :
    bandsFlat bands ≠ [] := by
  cases bands with
  | nil => simp at hN
  | cons p rest => simp [bandsFlat]

lemma npMax_bandsFlat (bands : List (ℚ × ℚ)) (hA : AscendingBands bands)
    (hC : ContiguousBands bands) (hN : 0 < bands.length) :
    npMax (bandsFlat bands) = (bandAt bands (bands.length - 1)).2 := by
  apply le_antisymm
  · have hmem := npMax_mem (bandsFlat bands) (bandsFlat_ne_nil bands hN)
    obtain ⟨p, hp, hx⟩ := (mem_bandsFlat_iff bands _).mp hmem
    obtain ⟨k, hk, he⟩ := mem_bands_index bands p hp
    have hkhi : (bandAt bands k).2 ≤ (bandAt bands (bands.length - 1)).2 := by
      rcases Nat.lt_or_ge k (bands.length - 1) with hlt | hge
      · have h1 := band_hi_le_lo bands hA hC k (bands.length - 1) hlt
          (by omega)
        have h2 := hA ⟨bands.length - 1, by omega⟩
        linarith
      · have hke : k = bands.length - 1 := by omega
        rw [hke]
    have hklo : (bandAt bands k).1 < (bandAt bands k).2 := hA ⟨k, hk⟩
    rcases hx with hx | hx
    · rw [hx, ← he]
      linarith
    · rw [hx, ← he]
      exact hkhi
  · apply le_npMax
    exact (mem_bandsFlat_iff bands _).mpr
      ⟨bandAt bands (bands.length - 1),
       bandAt_mem bands (bands.length - 1) (by omega), Or.inr rfl⟩

lemma npMin_bandsFlat (bands : List (ℚ × ℚ)) (hA : AscendingBands bands)
    (hC : ContiguousBands bands) (hN : 0 < bands.length) :
    npMin (bandsFlat bands) = (bandAt bands 0).1 := by
  apply le_antisymm
  · apply npMin_le
    exact (mem_bandsFlat_iff bands _).mpr
      ⟨bandAt bands 0, bandAt_mem bands 0 hN, Or.inl rfl⟩
  · have hmem := npMin_mem (bandsFlat bands) (bandsFlat_ne_nil bands hN)
    obtain ⟨p, hp, hx⟩ := (mem_bandsFlat_iff bands _).mp hmem
    obtain ⟨k, hk, he⟩ := mem_bands_index bands p hp
    have hklo : (bandAt bands 0).1 ≤ (bandAt bands k).1 := by
      rcases Nat.eq_zero_or_pos k with h0 | hpos
      · rw [h0]
      · have h1 := band_hi_le_lo bands hA hC 0 k hpos hk
        have h2 := hA ⟨0, hN⟩
        linarith
    have hkhi : (bandAt bands k).1 < (bandAt bands k).2 := hA ⟨k, hk⟩
    rcases hx with hx | hx
    · rw [hx, ← he]
      exact hklo
    · rw [hx, ← he]
      linarith

/-- C7: with a 2-dimensional orography and ascending contiguous bands,
process returns a complete result, emits the maximum-range warning
exactly when the maximum elevation strictly exceeds the highest upper
bound, and the minimum-range warning exactly when the minimum elevation
is strictly below the lowest lower bound. -/
theorem claim_C7_range_warnings (shape : List ℕ) (oro : ℕ → ℚ)
    (bands : List (ℚ × ℚ)) (hA : AscendingBands bands)
    (hC : ContiguousBands bands) (hN : 0 < bands.length)
    (hshape : shape.length = 2) :
    process shape oro bands =
      Except.ok (process_warnings oro shape.prod bands,
        topographic_zone_weights_data oro shape.prod bands) ∧
    (max_warning ∈ process_warnings oro shape.prod bands ↔
      npMax (oroList oro shape.prod) >
        (bandAt bands (bands.length - 1)).2) ∧
    (min_warning ∈ process_warnings oro shape.prod bands ↔
      npMin (oroList oro shape.prod) < (bandAt bands 0).1) := by
  have hmaxb := npMax_bandsFlat bands hA hC hN
  have hminb := npMin_bandsFlat bands hA hC hN
  have hne : max_warning ≠ min_warning := by decide
  refine ⟨?_, ?_, ?_⟩
  · unfold process
    rw [if_neg (by simp [hshape])]
  · unfold process_warnings
    rw [hmaxb, hminb]
    by_cases h1 : npMax (oroList oro shape.prod) >
        (bandAt bands (bands.length - 1)).2 <;>
      by_cases h2 : npMin (oroList oro shape.prod) < (bandAt bands 0).1 <;>
      simp [h1, h2, hne]
  · unfold process_warnings
    rw [hmaxb, hminb]
    by_cases h1 : npMax (oroList oro shape.prod) >
        (bandAt bands (bands.length - 1)).2 <;>
      by_cases h2 : npMin (oroList oro shape.prod) < (bandAt bands 0).1 <;>
      simp [h1, h2, Ne.symm hne]

/-- Witness for C7: shape [1,2], elevations all 120, bands
[[0,50],[50,100]]: the maximum warning fires. -/
theorem claim_C7_witness :
    max_warning ∈ process_warnings (fun _ => 120)
      ([1, 2] : List ℕ).prod [((0:ℚ), 50), (50, 100)] :=
  ((claim_C7_range_warnings [1, 2] (fun _ => 120)
    [((0:ℚ), 50), (50, 100)] (by decide) (by decide) (by decide)
    rfl).2.1).mpr (by decide)

end TopoZone
